import Mathlib

/-!
Shallow embedding of `src/migrate.js` (slite-to-outline migration script).

Strings are modelled as `List Char`; JavaScript regular expressions are
modelled by deterministic scanners that implement the exact matching
semantics of the concrete patterns appearing in the source (each such
scanner carries a comment naming its regex).  Registries (JS `Map`s) are
modelled either as lookup functions `List Char → Option (List Char)` or as
association lists with JS `Map.set` update-in-place semantics.
-/

set_option linter.unusedVariables false

namespace Slite

/-- ASCII subset of the JS regex class `\s` (also the characters trimmed by
`String.prototype.trim`); the Unicode additions are irrelevant to this
corpus. -/
def isJsWs (c : Char) : Bool :=
  c = ' ' || c = '\t' || c = '\n' || c = '\r' || c = '\x0b' || c = '\x0c'

/-- The JS regex class `[ \t]`. -/
def isSpaceTab (c : Char) : Bool := c = ' ' || c = '\t'

/-- JS `content.split('\n')`. -/
def splitNL : List Char → List (List Char)
  | [] => [[]]
  | c :: rest =>
    if c = '\n' then [] :: splitNL rest
    else
      match splitNL rest with
      | g :: gs => (c :: g) :: gs
      | [] => [[c]]

/-- JS `lines.join('\n')`. -/
def joinNL (lines : List (List Char)) : List Char := List.intercalate ['\n'] lines

/-- Left half of JS `trim`: drop leading whitespace. -/
def trimLeft (l : List Char) : List Char := l.dropWhile isJsWs

/-- Right half of JS `trim`: drop trailing whitespace. -/
def trimRight (l : List Char) : List Char := (l.reverse.dropWhile isJsWs).reverse

/-- JS `String.prototype.trim`. -/
def trim (l : List Char) : List Char := trimRight (trimLeft l)

/-- The markdown extension `.md` used throughout the script. -/
def mdExt : List Char := ['.', 'm', 'd']

/-- Scan for the first occurrence of `stop`; return the (stop-free) prefix
and the remainder after `stop`, or `none` when `stop` does not occur.  This
is the deterministic core of matching regex pieces such as `([^\]]*)\]` and
`([^)]+)\)`: the character class excludes the terminator, so greedy matching
and backtracking both land on the first occurrence of the terminator. -/
def splitAtChar (stop : Char) : List Char → Option (List Char × List Char)
  | [] => none
  | c :: cs =>
    if c = stop then some ([], cs)
    else
      match splitAtChar stop cs with
      | some (p, r) => some (c :: p, r)
      | none => none

theorem splitAtChar_eq_some (stop : Char) :
    ∀ l p r, splitAtChar stop l = some (p, r) → l = p ++ stop :: r ∧ stop ∉ p := by
  intro l
  induction l with
  | nil => intro p r h; simp [splitAtChar] at h
  | cons c cs ih =>
    intro p r h
    by_cases hc : c = stop
    · subst hc
      simp [splitAtChar] at h
      obtain ⟨hp, hr⟩ := h
      subst hp; subst hr
      simp
    · simp only [splitAtChar, if_neg hc] at h
      rcases h2 : splitAtChar stop cs with _ | ⟨p2, r2⟩ <;> rw [h2] at h
      · simp at h
      · simp at h
        obtain ⟨hp, hr⟩ := h
        obtain ⟨hcs, hmem⟩ := ih p2 r2 h2
        subst hp; subst hr; subst hcs
        constructor
        · simp
        · intro hmem2
          rcases List.mem_cons.mp hmem2 with h3 | h3
          · exact hc h3.symm
          · exact hmem h3

theorem splitAtChar_append (stop : Char) :
    ∀ p r, stop ∉ p → splitAtChar stop (p ++ stop :: r) = some (p, r) := by
  intro p
  induction p with
  | nil => intro r _; simp [splitAtChar]
  | cons c cs ih =>
    intro r hmem
    have hc : ¬ (c = stop) := by
      intro h; exact hmem (by simp [h])
    have hcs : stop ∉ cs := by
      intro h; exact hmem (List.mem_cons_of_mem _ h)
    have hstep : splitAtChar stop (c :: (cs ++ stop :: r)) = some (c :: cs, r) := by
      unfold splitAtChar
      rw [if_neg hc, ih r hcs]
    simpa using hstep

theorem splitAtChar_eq_none (stop : Char) :
    ∀ l, stop ∉ l → splitAtChar stop l = none := by
  intro l
  induction l with
  | nil => intro _; simp [splitAtChar]
  | cons c cs ih =>
    intro hmem
    have hc : ¬ (c = stop) := by
      intro h; exact hmem (by simp [h])
    have hcs : stop ∉ cs := by
      intro h; exact hmem (List.mem_cons_of_mem _ h)
    simp only [splitAtChar, if_neg hc, ih hcs]

theorem splitAtChar_some_length {stop : Char} {l p r : List Char}
    (h : splitAtChar stop l = some (p, r)) : r.length < l.length := by
  have := (splitAtChar_eq_some stop l p r h).1
  subst this
  simp
  omega

/-! ### Link scanner — `scanMarkdownLinks` (src/migrate.js:136-153)

The scan regex is `(!?\[(?:[^\]]*)\]\(([^)]+)\))` applied with `matchAll`
(global): repeated leftmost match, resuming after each match.  The link
text class `[^\]]*` admits the empty text; the target class `[^)]+` is
non-empty. -/

/-- Match one mandatory literal character of a regex (such as `\]` or `\(`)
and return the remainder. -/
def expectChar (c : Char) : List Char → Option (List Char)
  | [] => none
  | d :: rest => if d = c then some rest else none

theorem expectChar_some {c : Char} {l r : List Char}
    (h : expectChar c l = some r) : l = c :: r := by
  cases l with
  | nil => simp [expectChar] at h
  | cons d rest =>
    by_cases hd : d = c
    · simp [expectChar, hd] at h
      rw [hd, h]
    · simp [expectChar, hd] at h

theorem expectChar_cons {c : Char} {r : List Char} :
    expectChar c (c :: r) = some r := by
  simp [expectChar]

theorem expectChar_cons_ne {c d : Char} {r : List Char} (h : d ≠ c) :
    expectChar c (d :: r) = none := by
  simp [expectChar, h]

/-- Matching of the scan regex after its optional `!` and mandatory `[`:
`(?:[^\]]*)\]\(([^)]+)\)`.  The text class `[^\]]*` runs to the first `]`
(and may be empty), the target class `[^)]+` runs to the first `)` and must
be non-empty.  Returns the captured target and the remainder after the
closing parenthesis. -/
def scanBody (rest : List Char) : Option (List Char × List Char) :=
  (splitAtChar ']' rest).bind fun pr =>
    (expectChar '(' pr.2).bind fun rest2 =>
      (splitAtChar ')' rest2).bind fun tr =>
        if tr.1 = [] then none else some (tr.1, tr.2)

/-- Inversion of a successful scan-regex body match. -/
theorem scanBody_some {rest t r : List Char} (h : scanBody rest = some (t, r)) :
    ∃ text, rest = text ++ ']' :: '(' :: t ++ ')' :: r ∧
      ']' ∉ text ∧ ')' ∉ t ∧ t ≠ [] := by
  simp only [scanBody, Option.bind_eq_some] at h
  obtain ⟨⟨p1, r1⟩, h1, rest2, h2, ⟨tg, r3⟩, h3, h⟩ := h
  by_cases he : tg = []
  · rw [if_pos he] at h; simp at h
  · rw [if_neg he] at h
    simp only [Option.some.injEq, Prod.mk.injEq] at h
    obtain ⟨ht, hr⟩ := h
    obtain ⟨hrest, hm1⟩ := splitAtChar_eq_some ']' rest p1 r1 h1
    have hr1 : r1 = '(' :: rest2 := expectChar_some h2
    obtain ⟨hrest2, hm3⟩ := splitAtChar_eq_some ')' rest2 tg r3 h3
    refine ⟨p1, ?_, hm1, ?_, ?_⟩
    · rw [hrest, hr1, hrest2, ht, hr]; simp
    · rw [← ht]; exact hm3
    · rw [← ht]; exact he

theorem scanBody_some_length {rest t r : List Char}
    (h : scanBody rest = some (t, r)) : r.length < rest.length := by
  obtain ⟨text, hrest, -⟩ := scanBody_some h
  subst hrest
  simp
  omega

/-- Building form of a successful scan-regex body match. -/
theorem scanBody_build {text t r : List Char}
    (h1 : ']' ∉ text) (h2 : ')' ∉ t) (h3 : t ≠ []) :
    scanBody (text ++ ']' :: '(' :: t ++ ')' :: r) = some (t, r) := by
  have hs1 := splitAtChar_append ']' text ('(' :: (t ++ ')' :: r)) h1
  have hs2 := splitAtChar_append ')' t r h2
  simp [scanBody, hs1, hs2, expectChar_cons, h3]

/-- The ordered list of targets captured by
`content.matchAll(/(!?\[(?:[^\]]*)\]\(([^)]+)\))/g)`, in match order.  The
optional `!` is consumed as part of a match when present; a position where
no match starts is advanced past by one character, exactly as the regex
engine does (after a failed attempt at a `!` the engine retries at the
following `[`, with the same outcome). -/
def scanTargetsFuel : Nat → List Char → List (List Char)
  | _, [] => []
  | 0, _ :: _ => []
  | fuel + 1, c :: cs =>
    if c = '!' then
      match cs with
      | c2 :: rest =>
        if c2 = '[' then
          match scanBody rest with
          | some (t, r) => t :: scanTargetsFuel fuel r
          | none => scanTargetsFuel fuel (c2 :: rest)
        else scanTargetsFuel fuel (c2 :: rest)
      | [] => []
    else if c = '[' then
      match scanBody cs with
      | some (t, r) => t :: scanTargetsFuel fuel r
      | none => scanTargetsFuel fuel cs
    else scanTargetsFuel fuel cs

/-- The scan loop, started with enough fuel (each step consumes at least
one character, so the input length suffices; `scanTargetsFuel_irrel`
below shows any sufficient fuel computes the same list). -/
def scanTargets (l : List Char) : List (List Char) :=
  scanTargetsFuel l.length l

theorem scanTargetsFuel_nil : ∀ n, scanTargetsFuel n [] = [] := by
  intro n
  cases n <;> rfl

theorem scanTargetsFuel_irrel :
    ∀ n m l, l.length ≤ n → l.length ≤ m →
      scanTargetsFuel n l = scanTargetsFuel m l := by
  intro n
  induction n with
  | zero =>
    intro m l h1 h2
    have : l = [] := by
      cases l with
      | nil => rfl
      | cons c cs => simp at h1
    rw [this, scanTargetsFuel_nil, scanTargetsFuel_nil]
  | succ n ih =>
    intro m l h1 h2
    cases l with
    | nil => rw [scanTargetsFuel_nil, scanTargetsFuel_nil]
    | cons c cs =>
      cases m with
      | zero => simp at h2
      | succ m2 =>
        simp only [List.length_cons] at h1 h2
        simp only [scanTargetsFuel]
        by_cases hc : c = '!'
        · rw [if_pos hc, if_pos hc]
          cases cs with
          | nil => rfl
          | cons c2 rest =>
            simp only [List.length_cons] at h1 h2
            simp only []
            by_cases hc2 : c2 = '['
            · rw [if_pos hc2, if_pos hc2]
              rcases hb : scanBody rest with _ | ⟨t, r⟩
              · simp only [hb]
                exact ih m2 (c2 :: rest) (by simp; omega) (by simp; omega)
              · simp only [hb]
                have hlen := scanBody_some_length hb
                rw [ih m2 r (by omega) (by omega)]
            · rw [if_neg hc2, if_neg hc2,
                  ih m2 (c2 :: rest) (by simp; omega) (by simp; omega)]
        · rw [if_neg hc, if_neg hc]
          by_cases hcb : c = '['
          · rw [if_pos hcb, if_pos hcb]
            rcases hb : scanBody cs with _ | ⟨t, r⟩
            · simp only [hb]
              exact ih m2 cs (by omega) (by omega)
            · simp only [hb]
              have hlen := scanBody_some_length hb
              rw [ih m2 r (by omega) (by omega)]
          · rw [if_neg hcb, if_neg hcb, ih m2 cs (by omega) (by omega)]

/-- JS `Map.prototype.set`: update an existing key in place, otherwise
append the binding. -/
def mapSet {α β : Type} [DecidableEq α] (m : List (α × β)) (k : α) (v : β) :
    List (α × β) :=
  if m.any (fun kv => kv.1 = k) then
    m.map (fun kv => if kv.1 = k then (k, v) else kv)
  else
    m ++ [(k, v)]

/-- `scanMarkdownLinks` (src/migrate.js:136-153): classify each captured
target; targets starting with `http://` or `https://` are skipped, targets
ending in `.md` are document links, everything else is an attachment link.
Each map is keyed by the literal target, valued by the source path. -/
def scanMarkdownLinks (content sourcePath : List Char) :
    List (List Char × List Char) × List (List Char × List Char) :=
  (scanTargets content).foldl
    (fun maps t =>
      if ['h','t','t','p',':','/','/'].isPrefixOf t
          || ['h','t','t','p','s',':','/','/'].isPrefixOf t then
        maps
      else if mdExt.isSuffixOf t then
        (maps.1, mapSet maps.2 t sourcePath)
      else
        (mapSet maps.1 t sourcePath, maps.2))
    ([], [])

/-! ### Link rewriter — the replace pass of `updateMarkdownLinks`
(src/migrate.js:375-396)

The rewrite regex is `\[([^\]]+)\]\(([^)]+)\)` (no optional `!`, non-empty
link text) applied with `String.replace` (global): repeated leftmost match,
each match replaced by the callback result. -/

/-- Matching of the rewrite regex `\[([^\]]+)\]\(([^)]+)\)` at one position.
Both the link text class `[^\]]+` and the target class `[^)]+` run to the
first occurrence of their terminator and must be non-empty.  Returns the
captured link text, captured target, and the remainder after the match. -/
def matchLinkAt (l : List Char) : Option (List Char × List Char × List Char) :=
  (expectChar '[' l).bind fun rest =>
    (splitAtChar ']' rest).bind fun tr1 =>
      if tr1.1 = [] then none
      else
        (expectChar '(' tr1.2).bind fun rest2 =>
          (splitAtChar ')' rest2).bind fun tr2 =>
            if tr2.1 = [] then none else some (tr1.1, tr2.1, tr2.2)

theorem matchLinkAt_some {l t g r : List Char}
    (h : matchLinkAt l = some (t, g, r)) :
    l = '[' :: t ++ ']' :: '(' :: g ++ ')' :: r ∧
      ']' ∉ t ∧ t ≠ [] ∧ ')' ∉ g ∧ g ≠ [] := by
  simp only [matchLinkAt, Option.bind_eq_some] at h
  obtain ⟨rest, hl, ⟨p1, r1⟩, h1, h⟩ := h
  by_cases he1 : p1 = []
  · rw [if_pos he1] at h; simp at h
  · rw [if_neg he1] at h
    simp only [Option.bind_eq_some] at h
    obtain ⟨rest2, h2, ⟨p3, r3⟩, h3, h⟩ := h
    by_cases he3 : p3 = []
    · rw [if_pos he3] at h; simp at h
    · rw [if_neg he3] at h
      simp only [Option.some.injEq, Prod.mk.injEq] at h
      obtain ⟨ht, hg, hr⟩ := h
      have hl2 : l = '[' :: rest := expectChar_some hl
      obtain ⟨hrest, hm1⟩ := splitAtChar_eq_some ']' rest p1 r1 h1
      have hr1 : r1 = '(' :: rest2 := expectChar_some h2
      obtain ⟨hrest2, hm3⟩ := splitAtChar_eq_some ')' rest2 p3 r3 h3
      refine ⟨?_, ?_, ?_, ?_, ?_⟩
      · rw [hl2, hrest, hr1, hrest2, ht, hg, hr]; simp
      · rw [← ht]; exact hm1
      · rw [← ht]; exact he1
      · rw [← hg]; exact hm3
      · rw [← hg]; exact he3

theorem matchLinkAt_some_length {l t g r : List Char}
    (h : matchLinkAt l = some (t, g, r)) : r.length < l.length := by
  have := (matchLinkAt_some h).1
  subst this
  simp
  omega

/-- Building form of the rewrite-regex match: on a well-formed link the
match captures exactly the bracketed text and parenthesised target. -/
theorem matchLinkAt_build {t g r : List Char}
    (ht : ']' ∉ t) (htne : t ≠ []) (hg : ')' ∉ g) (hgne : g ≠ []) :
    matchLinkAt ('[' :: t ++ ']' :: '(' :: g ++ ')' :: r) = some (t, g, r) := by
  have hs1 := splitAtChar_append ']' t ('(' :: (g ++ ')' :: r)) ht
  have hs2 := splitAtChar_append ')' g r hg
  simp [matchLinkAt, expectChar_cons, hs1, hs2, htne, hgne]

theorem matchLinkAt_cons_ne {c : Char} {l : List Char} (h : c ≠ '[') :
    matchLinkAt (c :: l) = none := by
  simp [matchLinkAt, expectChar_cons_ne h]

theorem matchLinkAt_nil : matchLinkAt [] = none := by
  simp [matchLinkAt, expectChar]

/-! ### Path/target normalization used by the rewrite callback -/

/-- Hexadecimal digit value, as accepted in a `%hh` escape. -/
def hexVal (c : Char) : Option Nat :=
  if '0' ≤ c ∧ c ≤ '9' then some (c.toNat - '0'.toNat)
  else if 'a' ≤ c ∧ c ≤ 'f' then some (c.toNat - 'a'.toNat + 10)
  else if 'A' ≤ c ∧ c ≤ 'F' then some (c.toNat - 'A'.toNat + 10)
  else none

/-- Modelled builtin: JS `decodeURIComponent` restricted to single-byte
escapes, which is all this corpus uses.  A `%hh` pair with hex digits
decodes to the character with that code; other characters pass through. -/
def percentDecode : List Char → List Char
  | '%' :: h1 :: h2 :: rest =>
    match hexVal h1, hexVal h2 with
    | some a, some b => Char.ofNat (16 * a + b) :: percentDecode rest
    | _, _ => '%' :: percentDecode (h1 :: h2 :: rest)
  | c :: rest => c :: percentDecode rest
  | [] => []

/-- JS `path.replace(/^\//, '')`: strip a single leading slash. -/
def stripLeadingSlash : List Char → List Char
  | '/' :: r => r
  | l => l

/-- JS `s.replace(/\.md$/, '')`: strip one trailing `.md`. -/
def stripMdSuffix (l : List Char) : List Char :=
  if mdExt.isSuffixOf l then l.take (l.length - 3) else l

/-- The normalization `updateMarkdownLinks` applies to a link target
(src/migrate.js:380): strip one leading `/`, percent-decode, strip a
trailing `.md`. -/
def normalizeTarget (g : List Char) : List Char :=
  stripMdSuffix (percentDecode (stripLeadingSlash g))

/-- The rewrite callback of `updateMarkdownLinks` (src/migrate.js:375-396),
as the target it writes back: an `http`-prefixed target is untouched; else
the document map is consulted at the normalized target, then at the
normalized target with `.md` re-appended (JS `||`); else the attachment
map is consulted at the original target; else the target is unchanged.
`d` and `a` are the lookup functions of `documentUrlMap` and
`attachmentUrlMap`. -/
def newTarget (d a : List Char → Option (List Char)) (g : List Char) : List Char :=
  if ['h','t','t','p'].isPrefixOf g then g
  else
    match d (normalizeTarget g) with
    | some u => u
    | none =>
      match d (normalizeTarget g ++ mdExt) with
      | some u => u
      | none =>
        match a g with
        | some u => u
        | none => g

/-- One replacement performed by `String.replace`: in every branch of the
callback the written text has the shape `[text](target2)` — either the
original match (`return match`) or the same text with a substituted URL. -/
def rewriteMatch (d a : List Char → Option (List Char)) (text g : List Char) : List Char :=
  '[' :: text ++ ']' :: '(' :: newTarget d a g ++ [')']

/-- The global-replace pass
`cleanedContent.replace(/\[([^\]]+)\]\(([^)]+)\)/g, callback)`
(src/migrate.js:375): leftmost-match loop, advancing one character where no
match starts, substituting each match by the callback result. -/
def rewriteAllFuel (d a : List Char → Option (List Char)) : Nat → List Char → List Char
  | _, [] => []
  | 0, _ :: _ => []
  | fuel + 1, c :: cs =>
    match matchLinkAt (c :: cs) with
    | some (text, target, rest) => rewriteMatch d a text target ++ rewriteAllFuel d a fuel rest
    | none => c :: rewriteAllFuel d a fuel cs

/-- The replace loop, started with enough fuel (each step consumes at
least one character, so the input length suffices;
`rewriteAllFuel_irrel` below shows any sufficient fuel computes the same
string). -/
def rewriteAll (d a : List Char → Option (List Char)) (l : List Char) : List Char :=
  rewriteAllFuel d a l.length l

theorem rewriteAllFuel_nil {d a : List Char → Option (List Char)} :
    ∀ n, rewriteAllFuel d a n [] = [] := by
  intro n
  cases n <;> rfl

theorem rewriteAllFuel_irrel {d a : List Char → Option (List Char)} :
    ∀ n m l, l.length ≤ n → l.length ≤ m →
      rewriteAllFuel d a n l = rewriteAllFuel d a m l := by
  intro n
  induction n with
  | zero =>
    intro m l h1 h2
    have : l = [] := by
      cases l with
      | nil => rfl
      | cons c cs => simp at h1
    rw [this, rewriteAllFuel_nil, rewriteAllFuel_nil]
  | succ n ih =>
    intro m l h1 h2
    cases l with
    | nil => rw [rewriteAllFuel_nil, rewriteAllFuel_nil]
    | cons c cs =>
      cases m with
      | zero => simp at h2
      | succ m2 =>
        simp only [List.length_cons] at h1 h2
        simp only [rewriteAllFuel]
        rcases hm : matchLinkAt (c :: cs) with _ | ⟨text, g, rest⟩
        · simp only [hm]
          rw [ih m2 cs (by omega) (by omega)]
        · simp only [hm]
          have hlen := matchLinkAt_some_length hm
          simp only [List.length_cons] at hlen
          rw [ih m2 rest (by omega) (by omega)]

/-! ### Heading detection and preamble stripping —
`parseDocumentContent` (src/migrate.js:267-292) and the cleaning step of
`updateMarkdownLinks` (src/migrate.js:365-372)

Both functions drop the first 6 lines, then remove the first match of the
multiline heading regex.  `parseDocumentContent` detects the heading with
`/^[ \t]*#\s*(.+?)(?:\n|$)/m` and removes it with
`/^[ \t]*#\s*(.+?)(?:\n+|$)/m`; the two patterns match at the same
position with the same capture (they differ only in how many trailing
newlines the match consumes), so a single scanner below computes the
capture together with the removal split.

Matching semantics at a line start: `[ \t]*` then a literal `#`; then
`\s*` is greedy and may cross newlines; `(.+?)(?:\n+|$)` lazily captures
from the first following non-whitespace character to the end of its line.
When everything after the `#` is whitespace, the greedy `\s*` backtracks
to just before the last non-newline whitespace character, which becomes a
one-character capture.  If everything after the `#` consists of newlines
only (or nothing), the match fails at this line. -/

/-- Continuation of the heading regex after its `#`, operating line-wise:
`r` is the rest of the current line (newline-free), `rest` the following
lines.  `lastWs` remembers the last non-newline whitespace character seen
while `\s*` crosses previous all-whitespace line remainders.  Returns the
capture of `(.+?)` and the lines remaining after the greedy `(?:\n+|$)`. -/
def contAfterHash : Option Char → List Char → List (List Char) →
    Option (List Char × List (List Char))
  | lastWs, r, [] =>
    (match r.dropWhile isJsWs with
     | c :: cs => some (c :: cs, [])
     | [] =>
       match (if r.isEmpty then lastWs else r.getLast?) with
       | some c => some ([c], [])
       | none => none)
  | lastWs, r, l2 :: more =>
    (match r.dropWhile isJsWs with
     | c :: cs => some (c :: cs, (l2 :: more).dropWhile (fun l3 => l3.isEmpty))
     | [] => contAfterHash (if r.isEmpty then lastWs else r.getLast?) l2 more)

/-- The heading regex can start matching at this line: `[ \t]*` then a
literal `#`. -/
def isHeadingLine (l : List Char) : Bool :=
  match l.dropWhile isSpaceTab with
  | c :: _ => c = '#'
  | [] => false

/-- The rest of a heading line after its `#`. -/
def headingRest (l : List Char) : List Char :=
  match l.dropWhile isSpaceTab with
  | _ :: r => r
  | [] => []

/-- First match of the heading regex over a list of lines: returns the
lines before the match, the capture, and the lines after the match (the
trailing `\n+` of the removal regex also consumes following empty lines).
`none` when the regex does not match.  The multiline `^` anchors candidate
positions at line starts, which is exactly `isHeadingLine`. -/
def findHeaderLines : List (List Char) → Option (List (List Char) × List Char × List (List Char))
  | [] => none
  | l :: rest =>
    if isHeadingLine l then
      match contAfterHash none (headingRest l) rest with
      | some (cap, after) => some ([], cap, after)
      | none =>
        match findHeaderLines rest with
        | some (b, cap, a) => some (l :: b, cap, a)
        | none => none
    else
      match findHeaderLines rest with
      | some (b, cap, a) => some (l :: b, cap, a)
      | none => none

/-- The characters before the heading match: the earlier lines, joined,
with the newline that the heading line start follows. -/
def beforeChars (before : List (List Char)) : List Char :=
  if before.isEmpty then [] else joinNL before ++ ['\n']

/-- node `basename(p, ext)`: the last path component, with `ext` stripped
when it is a proper suffix. -/
def basenameExt (p ext : List Char) : List Char :=
  let q := (p.reverse.dropWhile (fun c => c = '/')).reverse
  let b := (q.reverse.takeWhile (fun c => c ≠ '/')).reverse
  if ext.isSuffixOf b ∧ b ≠ ext then b.take (b.length - ext.length) else b

/-- `parseDocumentContent` (src/migrate.js:267-292): drop the first 6
lines; if the heading regex matches, the capture (trimmed) is the title
and the match is removed from the content, then leading newlines are
stripped; otherwise the title falls back to the file name minus `.md`.
The returned title and content are both trimmed (the title twice, as in
the source). -/
def parseDocumentContent (content fileName : String) : String × String :=
  let lines := (splitNL content.toList).drop 6
  match findHeaderLines lines with
  | some (before, cap, after) =>
    (String.mk (trim (trim cap)),
     String.mk (trim ((beforeChars before ++ joinNL after).dropWhile (fun c => c = '\n'))))
  | none =>
    (String.mk (trim (basenameExt fileName.toList mdExt)),
     String.mk (trim (joinNL lines)))

/-- The cleaning steps of `updateMarkdownLinks` (src/migrate.js:365-372):
drop the first 6 lines, remove the first heading-regex match (a no-op when
there is none), strip leading newlines.  Unlike `parseDocumentContent`
this is applied unconditionally and the result is not trimmed. -/
def cleanedContent (content : List Char) : List Char :=
  let lines := (splitNL content).drop 6
  let c :=
    match findHeaderLines lines with
    | some (before, _, after) => beforeChars before ++ joinNL after
    | none => joinNL lines
  c.dropWhile (fun ch => ch = '\n')

/-- `updateMarkdownLinks` (src/migrate.js:365-397): clean, then rewrite
every link against the two registries. -/
def updateMarkdownLinks (d a : List Char → Option (List Char)) (content : String) : String :=
  String.mk (rewriteAll d a (cleanedContent content.toList))

/-! ### Path resolution — `resolveAttachmentPath` (src/migrate.js:189-201) -/

/-- Split a path on `/` (same contract as `splitNL`). -/
def splitSlash : List Char → List (List Char)
  | [] => [[]]
  | c :: rest =>
    if c = '/' then [] :: splitSlash rest
    else
      match splitSlash rest with
      | g :: gs => (c :: g) :: gs
      | [] => [[c]]

/-- node path normalization over segments: empty and `.` segments vanish,
`..` pops the previous segment (and vanishes at the root, the only case
this model is used in: resolution from an absolute base). -/
def normSegs (segs : List (List Char)) : List (List Char) :=
  segs.foldl
    (fun acc s =>
      if s = [] ∨ s = ['.'] then acc
      else if s = ['.', '.'] then acc.dropLast
      else acc ++ [s])
    []

/-- Right-to-left argument collection of node `path.resolve`: arguments are
prepended until an absolute one is found, else the working directory.  The
input is the reversed argument list; the output is reversed (base last). -/
def resolveCollect (cwd : List Char) : List (List Char) → List (List Char)
  | [] => [cwd]
  | a :: earlier =>
    if a.head? = some '/' then [a] else a :: resolveCollect cwd earlier

/-- Modelled builtin: node `path.resolve(...args)` for an absolute working
directory `cwd` (the only regime the script runs in that matters here:
either an argument is absolute or the joined path is interpreted from an
absolute working directory). -/
def resolvePosix (cwd : List Char) (args : List (List Char)) : List Char :=
  let parts := (resolveCollect cwd args.reverse).reverse
  let segs := normSegs (parts.foldr (fun p acc => splitSlash p ++ acc) [])
  '/' :: List.intercalate ['/'] segs

/-- node `path.dirname` (posix). -/
def dirnameChars (p : List Char) : List Char :=
  let q := (p.reverse.dropWhile (fun c => c = '/')).reverse
  if q.isEmpty then (if p.isEmpty then ['.'] else ['/'])
  else
    let r := (q.reverse.dropWhile (fun c => c ≠ '/')).reverse
    let s := (r.reverse.dropWhile (fun c => c = '/')).reverse
    if s.isEmpty then (if r.isEmpty then ['.'] else ['/'])
    else s

/-- JS `String.prototype.includes(needle)`. -/
def containsSub (needle hay : List Char) : Bool :=
  hay.tails.any (fun t => needle.isPrefixOf t)

/-- The `media_` marker used by the script. -/
def mediaPrefix : List Char := ['m', 'e', 'd', 'i', 'a', '_']

/-- `resolveAttachmentPath` (src/migrate.js:189-201): percent-decode the
reference; if the decoded path contains `media_`, resolve it against the
source document's directory, else against the sibling directory
`media_<doc base name>`.  `cwd` stands for the process working directory
consumed by node `path.resolve`. -/
def resolveAttachmentPath (cwd attachmentPath sourceDocPath : List Char) : List Char :=
  let sourceDir := dirnameChars sourceDocPath
  let decodedPath := percentDecode attachmentPath
  if containsSub mediaPrefix decodedPath then
    resolvePosix cwd [sourceDir, decodedPath]
  else
    let sourceDocName := basenameExt sourceDocPath mdExt
    resolvePosix cwd [sourceDir, mediaPrefix ++ sourceDocName, decodedPath]

/-! ### Media-folder classification — `isMediaFolder` (src/migrate.js:404-425) -/

/-- The match of `/\.[^.]+$/` on a file name: the last dot together with
the non-empty dot-free suffix after it, if any. -/
def extOf (name : List Char) : Option (List Char) :=
  let suffix := name.reverse.takeWhile (fun c => c ≠ '.')
  if suffix.isEmpty then none
  else
    match name.reverse.drop suffix.length with
    | c :: _ => if c = '.' then some ('.' :: suffix.reverse) else none
    | [] => none

/-- The known media extensions (src/migrate.js:420). -/
def mediaExtensions : List (List Char) :=
  [['.','j','p','g'], ['.','j','p','e','g'], ['.','p','n','g'],
   ['.','g','i','f'], ['.','p','d','f']]

/-- One file's check inside `isMediaFolder`: lowercase the name, extract
the extension, and require membership in the known set. -/
def hasMediaExt (fileName : String) : Bool :=
  match extOf (fileName.toList.map Char.toLower) with
  | some e => mediaExtensions.contains e
  | none => false

/-- `isMediaFolder` (src/migrate.js:404-425).  A directory is modelled by
its base name and its listing (entry name, whether the entry is a file),
which is all the function consults. -/
def isMediaFolder (baseName : String) (entries : List (String × Bool)) : Bool :=
  if mediaPrefix.isPrefixOf baseName.toList then true
  else
    let files := (entries.filter (fun e => e.2)).map (fun e => e.1)
    if files.length = 0 then false
    else files.all hasMediaExt

/-! ### Structure builder — `createDocumentStructure` (src/migrate.js:301-357)

The filesystem is modelled as a tree; remote calls are modelled by a state
holding a fresh-id counter, the two registries, and the log of creation
requests.  `relDir` is the directory's path relative to the backup root
(`""` at the root), so that `relative(SLITE_BACKUP_PATH, join(dir, name))`
becomes `relJoin relDir name`. -/

inductive FsEntry where
  | file (name : String) (content : String)
  | dir (name : String) (entries : List FsEntry)

def FsEntry.entryName : FsEntry → String
  | .file n _ => n
  | .dir n _ => n

def FsEntry.entryIsFile : FsEntry → Bool
  | .file _ _ => true
  | .dir _ _ => false

/-- The `withFileTypes` listing of a directory's entries. -/
def listingOf (es : List FsEntry) : List (String × Bool) :=
  es.map (fun e => (e.entryName, e.entryIsFile))

structure MigState where
  nextId : Nat
  documentIdMap : List (String × String)
  documentUrlMap : List (String × String)
  created : List (String × String × String × String × Option String)
deriving DecidableEq

/-- Modelled collaborator: `createDocument` (src/migrate.js:80-95) returns
a fresh remote document id; the state records the creation request as
(id, title, text, collectionId, parentDocumentId). -/
def createDocumentM (title text coll : String) (parent : Option String) (st : MigState) :
    String × MigState :=
  let docId := "id" ++ toString st.nextId
  (docId,
   { st with
       nextId := st.nextId + 1,
       created := st.created ++ [(docId, title, text, coll, parent)] })

/-- `relative(SLITE_BACKUP_PATH, join(dirPath, name))` for a directory at
relative path `relDir` under the backup root. -/
def relJoin (relDir name : String) : String :=
  if relDir = "" then name else relDir ++ "/" ++ name

/-- First pass of `createDocumentStructure` (src/migrate.js:304-324):
create one document per markdown file, registering its id and url. -/
def processFileEntries (entries : List FsEntry) (relDir coll : String)
    (parent : Option String) (st : MigState) : MigState :=
  entries.foldl
    (fun st e =>
      match e with
      | .file name content =>
        if name.endsWith ".md" then
          let pc := parseDocumentContent content name
          let idSt := createDocumentM pc.1 pc.2 coll parent st
          let rel := relJoin relDir name
          { idSt.2 with
              documentIdMap := mapSet idSt.2.documentIdMap rel idSt.1,
              documentUrlMap := mapSet idSt.2.documentUrlMap rel ("/doc/" ++ idSt.1) }
        else st
      | .dir _ _ => st)
    st

/-- Second pass of `createDocumentStructure` (src/migrate.js:326-356):
skip media folders entirely; give every other subdirectory a container
document, register it, and recurse with the container as parent. -/
def processDirEntries : List FsEntry → String → String → Option String → MigState → MigState
  | [], _, _, _, st => st
  | .file _ _ :: rest, relDir, coll, parent, st =>
    processDirEntries rest relDir coll parent st
  | .dir name es :: rest, relDir, coll, parent, st =>
    if isMediaFolder name (listingOf es) then
      processDirEntries rest relDir coll parent st
    else
      let idSt := createDocumentM name "" coll parent st
      let rel := relJoin relDir name
      let st2 :=
        { idSt.2 with
            documentIdMap := mapSet idSt.2.documentIdMap rel idSt.1,
            documentUrlMap := mapSet idSt.2.documentUrlMap rel ("/doc/" ++ idSt.1) }
      let st3 :=
        processDirEntries es rel coll (some idSt.1)
          (processFileEntries es rel coll (some idSt.1) st2)
      processDirEntries rest relDir coll parent st3

/-- `createDocumentStructure` (src/migrate.js:301-357): markdown files
first, then subdirectories. -/
def createDocumentStructure (entries : List FsEntry) (relDir coll : String)
    (parent : Option String) (st : MigState) : MigState :=
  processDirEntries entries relDir coll parent
    (processFileEntries entries relDir coll parent st)

/-! ### Phase 2 of `migrate` (src/migrate.js:532-563) -/

structure Phase2State where
  attachmentUrlMap : List (String × String)
  uploads : List (String × String)
deriving DecidableEq

/-- Modelled builtin: `relative(SLITE_BACKUP_PATH, p)` for the source
paths the scan produces, which are `join(SLITE_BACKUP_PATH, rel)` =
`slite-backup/channels/<rel>`. -/
def backupPrefix : List Char := ('s' :: "lite-backup/channels/".toList)

def relativeFromBackup (p : String) : String :=
  if backupPrefix.isPrefixOf p.toList then
    String.mk (p.toList.drop backupPrefix.length)
  else p

/-- One iteration of the phase-2 loop (src/migrate.js:536-563): look up
the owning document of the reference's source file; without a registered
id the item is skipped (log only).  Otherwise resolve the attachment,
skip when the file does not exist, else perform the upload (modelled by
the `uploadedUrl` oracle) and record the literal link → url mapping.
`fileExists` models the filesystem, `cwd` the working directory. -/
def uploadAttachmentStep (docIdMap : List (String × String))
    (fileExists : String → Bool) (uploadedUrl : String → String → String)
    (cwd : String) (st : Phase2State) (link sourcePath : String) : Phase2State :=
  match docIdMap.lookup (relativeFromBackup sourcePath) with
  | none => st
  | some docId =>
    let fullPath :=
      String.mk (resolveAttachmentPath cwd.toList link.toList sourcePath.toList)
    if fileExists fullPath then
      { attachmentUrlMap := mapSet st.attachmentUrlMap link (uploadedUrl fullPath docId),
        uploads := st.uploads ++ [(fullPath, docId)] }
    else st

/-- The whole phase-2 loop over the scanned attachment links. -/
def phase2 (docIdMap : List (String × String)) (fileExists : String → Bool)
    (uploadedUrl : String → String → String) (cwd : String)
    (links : List (String × String)) (st : Phase2State) : Phase2State :=
  links.foldl (fun s ls => uploadAttachmentStep docIdMap fileExists uploadedUrl cwd s ls.1 ls.2) st

/-! ### Link-shaped strings and unfolding lemmas for the scanner and the
rewriter -/

/-- The text of one markdown link, `[text](target)`. -/
def mkLink (text g : List Char) : List Char :=
  '[' :: text ++ ']' :: '(' :: g ++ [')']

/-- The text of one markdown image link, `![text](target)`. -/
def mkImgLink (text g : List Char) : List Char :=
  '!' :: mkLink text g

theorem rewriteAll_nil {d a : List Char → Option (List Char)} :
    rewriteAll d a [] = [] := rfl

theorem rewriteAll_cons_none {d a : List Char → Option (List Char)} {c : Char}
    {cs : List Char} (h : matchLinkAt (c :: cs) = none) :
    rewriteAll d a (c :: cs) = c :: rewriteAll d a cs := by
  unfold rewriteAll
  simp only [List.length_cons, rewriteAllFuel, h]

theorem rewriteAll_cons_some {d a : List Char → Option (List Char)} {c : Char}
    {cs text g rest : List Char} (h : matchLinkAt (c :: cs) = some (text, g, rest)) :
    rewriteAll d a (c :: cs) = rewriteMatch d a text g ++ rewriteAll d a rest := by
  unfold rewriteAll
  simp only [List.length_cons, rewriteAllFuel, h]
  have hlen := matchLinkAt_some_length h
  simp only [List.length_cons] at hlen
  rw [rewriteAllFuel_irrel cs.length rest.length rest (by omega) (by omega)]

/-- A string without `[` contains no rewrite-regex match and passes through
the replace loop unchanged. -/
theorem rewriteAll_no_bracket {d a : List Char → Option (List Char)} :
    ∀ l : List Char, '[' ∉ l → rewriteAll d a l = l := by
  intro l
  induction l with
  | nil => intro _; exact rewriteAll_nil
  | cons c cs ih =>
    intro hmem
    have hc : c ≠ '[' := by
      intro h; exact hmem (by simp [h])
    have hcs : '[' ∉ cs := by
      intro h; exact hmem (List.mem_cons_of_mem _ h)
    rw [rewriteAll_cons_none (matchLinkAt_cons_ne hc), ih hcs]

/-- The rewrite regex requires non-empty link text: `[](...` never
matches. -/
theorem matchLinkAt_empty_text {x : List Char} :
    matchLinkAt ('[' :: ']' :: x) = none := by
  simp [matchLinkAt, expectChar, splitAtChar]

/-- The replace loop on a single well-formed link performs exactly the
callback replacement. -/
theorem rewriteAll_link {d a : List Char → Option (List Char)} {text g : List Char}
    (ht : ']' ∉ text) (htne : text ≠ []) (hg : ')' ∉ g) (hgne : g ≠ []) :
    rewriteAll d a (mkLink text g) = rewriteMatch d a text g := by
  have hm := matchLinkAt_build (r := []) ht htne hg hgne
  have hform : mkLink text g = '[' :: (text ++ ']' :: '(' :: (g ++ [')'])) := by
    simp [mkLink]
  have hm2 : matchLinkAt ('[' :: (text ++ ']' :: '(' :: (g ++ [')']))) =
      some (text, g, []) := by
    simpa using hm
  rw [hform, rewriteAll_cons_some hm2, rewriteAll_nil, List.append_nil]

/-- The scan loop on a single well-formed link finds exactly its target,
with or without a leading `!`. -/
theorem scanTargets_link {text g : List Char}
    (ht : ']' ∉ text) (hg : ')' ∉ g) (hgne : g ≠ []) :
    scanTargets (mkLink text g) = [g] ∧ scanTargets (mkImgLink text g) = [g] := by
  have hb : scanBody (text ++ ']' :: '(' :: (g ++ [')'])) = some (g, []) := by
    have := scanBody_build (r := []) ht hg hgne
    simpa using this
  have hform : mkLink text g = '[' :: (text ++ ']' :: '(' :: (g ++ [')'])) := by
    simp [mkLink]
  have hplain : scanTargets ('[' :: (text ++ ']' :: '(' :: (g ++ [')']))) = [g] := by
    unfold scanTargets
    simp only [List.length_cons, scanTargetsFuel]
    simp [hb, scanTargetsFuel_nil]
  constructor
  · rw [hform, hplain]
  · rw [mkImgLink, hform]
    unfold scanTargets
    simp only [List.length_cons, scanTargetsFuel]
    simp [hb, scanTargetsFuel_nil]

/-- Classification of a single link by `scanMarkdownLinks`: image and
plain syntax classify identically; http(s) targets are skipped; `.md`
targets are document links; everything else is an attachment link. -/
theorem scanMarkdownLinks_link {text g src : List Char}
    (ht : ']' ∉ text) (hg : ')' ∉ g) (hgne : g ≠ []) :
    scanMarkdownLinks (mkImgLink text g) src = scanMarkdownLinks (mkLink text g) src ∧
    scanMarkdownLinks (mkLink text g) src =
      (if ['h','t','t','p',':','/','/'].isPrefixOf g
          || ['h','t','t','p','s',':','/','/'].isPrefixOf g then
        ([], [])
      else if mdExt.isSuffixOf g then
        ([], [(g, src)])
      else
        ([(g, src)], [])) := by
  obtain ⟨h1, h2⟩ := scanTargets_link ht hg hgne
  constructor
  · unfold scanMarkdownLinks
    rw [h1, h2]
  · unfold scanMarkdownLinks
    rw [h1]
    simp only [List.foldl_cons, List.foldl_nil]
    rcases hhttp : (['h','t','t','p',':','/','/'].isPrefixOf g
        || ['h','t','t','p','s',':','/','/'].isPrefixOf g) with _ | _
    · simp [mapSet]
    · simp [mapSet]

/-! ### Trim lemmas -/

theorem dropWhile_dropWhile_same {α : Type} {p : α → Bool} :
    ∀ l : List α, (l.dropWhile p).dropWhile p = l.dropWhile p := by
  intro l
  induction l with
  | nil => rfl
  | cons c cs ih =>
    rcases hp : p c with _ | _
    · rw [List.dropWhile_cons, hp]
      simp only [Bool.false_eq_true, if_false]
      rw [List.dropWhile_cons, hp]
      simp
    · rw [List.dropWhile_cons, hp]
      simpa using ih

theorem trimLeft_trimLeft (l : List Char) : trimLeft (trimLeft l) = trimLeft l :=
  dropWhile_dropWhile_same l

theorem trimRight_trimRight (l : List Char) : trimRight (trimRight l) = trimRight l := by
  unfold trimRight
  rw [List.reverse_reverse, dropWhile_dropWhile_same]

theorem trimRight_prefix (l : List Char) : trimRight l <+: l := by
  have h := List.dropWhile_suffix (l := l.reverse) (p := isJsWs)
  have h2 := List.reverse_prefix.mpr h
  rwa [List.reverse_reverse] at h2

theorem trimLeft_eq_self_of_trimmed {l : List Char} (h : trimLeft l = l) :
    trimLeft (trimRight l) = trimRight l := by
  cases l with
  | nil =>
    have : trimRight ([] : List Char) = [] := rfl
    rw [this, h]
  | cons c cs =>
    have hc : isJsWs c = false := by
      rcases hw : isJsWs c with _ | _
      · rfl
      · exfalso
        have := h
        unfold trimLeft at this
        rw [List.dropWhile_cons, hw] at this
        simp only [if_true] at this
        have hlen := congrArg List.length this
        have hle := (List.dropWhile_suffix (l := cs) (p := isJsWs)).sublist.length_le
        simp at hlen
        omega
    rcases hpre : trimRight (c :: cs) with _ | ⟨d, ds⟩
    · rfl
    · have hp := trimRight_prefix (c :: cs)
      rw [hpre] at hp
      have hd : d = c := by
        obtain ⟨t, ht⟩ := hp
        injection ht with h1 h2
      unfold trimLeft
      rw [List.dropWhile_cons, hd, hc]
      simp

theorem trim_idem (l : List Char) : trim (trim l) = trim l := by
  unfold trim
  rw [trimLeft_eq_self_of_trimmed (trimLeft_trimLeft l), trimRight_trimRight]

theorem trim_dropWhile_ws (l : List Char) : trim (l.dropWhile isJsWs) = trim l := by
  unfold trim trimLeft
  rw [dropWhile_dropWhile_same]

theorem trimLeft_dropWhile_nl (l : List Char) :
    trimLeft (l.dropWhile (fun c => c = '\n')) = trimLeft l := by
  induction l with
  | nil => rfl
  | cons c cs ih =>
    by_cases hc : c = '\n'
    · subst hc
      have h1 : List.dropWhile (fun c => decide (c = '\n')) ('\n' :: cs) =
          List.dropWhile (fun c => decide (c = '\n')) cs := by
        simp
      have h2 : trimLeft ('\n' :: cs) = trimLeft cs := by
        unfold trimLeft
        rw [List.dropWhile_cons]
        simp [isJsWs]
      rw [h1, ih, h2]
    · have h1 : List.dropWhile (fun c => decide (c = '\n')) (c :: cs) = c :: cs := by
        simp [hc]
      rw [h1]

theorem trim_dropWhile_nl (l : List Char) :
    trim (l.dropWhile (fun c => c = '\n')) = trim l := by
  unfold trim
  rw [trimLeft_dropWhile_nl]

/-! ### Claim-side reading of the content parser (C2, C4) -/

/-- Modelled from the spec (claim C4's words): drop the first 6 lines;
scanning top-to-bottom, the first heading line's trimmed text is the
title, and that heading line together with its trailing blank lines is
removed from the body; without a heading the title is the file name minus
`.md` and the body is the remainder. -/
def parseSpecClaim (content fileName : String) : String × String :=
  let lines := (splitNL content.toList).drop 6
  match lines.dropWhile (fun l => !(isHeadingLine l)) with
  | h :: after =>
    (String.mk (trim (headingRest h)),
     String.mk (joinNL (lines.takeWhile (fun l => !(isHeadingLine l))
       ++ after.dropWhile (fun l2 => l2.isEmpty))))
  | [] =>
    (String.mk (basenameExt fileName.toList mdExt),
     String.mk (joinNL lines))

/-- The claim amended to the code's behavior: same heading selection, but
the body is spliced the way the removal regex leaves it (the text before
the heading keeps its final newline, the blank lines after the heading are
consumed) and then stripped of leading newlines and trimmed, and the
fallback body is trimmed. -/
def parseSpecAmended (content fileName : String) : String × String :=
  let lines := (splitNL content.toList).drop 6
  match lines.dropWhile (fun l => !(isHeadingLine l)) with
  | h :: after =>
    (String.mk (trim (headingRest h)),
     String.mk (trim ((beforeChars (lines.takeWhile (fun l => !(isHeadingLine l)))
       ++ joinNL (after.dropWhile (fun l2 => l2.isEmpty))).dropWhile (fun c => c = '\n'))))
  | [] =>
    (String.mk (trim (basenameExt fileName.toList mdExt)),
     String.mk (trim (joinNL lines)))

/-- Spec-side shape of the heading search, for comparison with the
regex-faithful `findHeaderLines`. -/
def findHeaderLinesSpec (lines : List (List Char)) :
    Option (List (List Char) × List Char × List (List Char)) :=
  match lines.dropWhile (fun l => !(isHeadingLine l)) with
  | h :: after =>
    some (lines.takeWhile (fun l => !(isHeadingLine l)),
          (headingRest h).dropWhile isJsWs,
          after.dropWhile (fun l2 => l2.isEmpty))
  | [] => none

/-- Every heading line of the content (after the 6-line preamble) carries
a non-whitespace character on the same line; this rules out the heading
regex's `\s*` running across newlines. -/
def headingsCarryText (content : String) : Bool :=
  ((splitNL content.toList).drop 6).all
    (fun l => !(isHeadingLine l) || (headingRest l).any (fun c => !(isJsWs c)))

theorem contAfterHash_text {r : List Char} (rest : List (List Char)) (lw : Option Char)
    (h : r.any (fun c => !(isJsWs c)) = true) :
    contAfterHash lw r rest =
      some (r.dropWhile isJsWs, rest.dropWhile (fun l2 => l2.isEmpty)) := by
  have hne : r.dropWhile isJsWs ≠ [] := by
    intro hnil
    rw [List.dropWhile_eq_nil_iff] at hnil
    rw [List.any_eq_true] at h
    obtain ⟨c, hmem, hc⟩ := h
    have := hnil c hmem
    simp at hc
    rw [this] at hc
    exact absurd hc (by simp)
  rcases hd : r.dropWhile isJsWs with _ | ⟨c, cs⟩
  · exact absurd hd hne
  · cases rest with
    | nil =>
      simp only [contAfterHash, hd]
      rfl
    | cons l2 more =>
      simp only [contAfterHash, hd]

theorem findHeaderLines_spec :
    ∀ lines : List (List Char),
      (∀ l ∈ lines, isHeadingLine l = true →
        (headingRest l).any (fun c => !(isJsWs c)) = true) →
      findHeaderLines lines = findHeaderLinesSpec lines := by
  intro lines
  induction lines with
  | nil => intro _; rfl
  | cons l rest ih =>
    intro H
    have Hl := H l (List.mem_cons_self l rest)
    have Hrest : ∀ l2 ∈ rest, isHeadingLine l2 = true →
        (headingRest l2).any (fun c => !(isJsWs c)) = true :=
      fun l2 hm => H l2 (List.mem_cons_of_mem _ hm)
    unfold findHeaderLines
    rcases hline : isHeadingLine l with _ | _
    · simp only [hline, Bool.false_eq_true, if_false]
      rw [ih Hrest]
      unfold findHeaderLinesSpec
      rw [List.dropWhile_cons, List.takeWhile_cons, hline]
      simp only [Bool.not_false, if_true]
      rcases hrest : rest.dropWhile (fun l2 => !(isHeadingLine l2)) with _ | ⟨h2, after⟩ <;>
        simp only [hrest]
    · simp only [hline, if_true]
      rw [contAfterHash_text rest none (Hl hline)]
      unfold findHeaderLinesSpec
      rw [List.dropWhile_cons, List.takeWhile_cons, hline]
      simp only [Bool.not_true, Bool.false_eq_true, if_false]

/-! ### Claim C2 -/

/-- C2 counterexample: the body returned by `parseDocumentContent` is
trimmed, the cleaned content of `updateMarkdownLinks` is not — on a
document whose seventh line is `"Body "` the former is `"Body"` and the
latter `"Body "`, so the two transforms are not exactly equal. -/
theorem c2_cleaning_counterexample :
    String.mk (cleanedContent "1\n2\n3\n4\n5\n6\nBody ".toList) ≠
      (parseDocumentContent "1\n2\n3\n4\n5\n6\nBody " "f.md").2 := by
  decide

/-- C2 amended: the cleaned content that `updateMarkdownLinks` computes
before substituting links equals the body returned by
`parseDocumentContent` up to a final `trim` — the parser trims its body
(and only strips leading newlines when a heading was found, which the
trim subsumes), the cleaner does not trim. -/
theorem c2_cleaning_matches_parse :
    ∀ (content fileName : String),
      (parseDocumentContent content fileName).2 =
        String.mk (trim (cleanedContent content.toList)) := by
  intro content fileName
  unfold parseDocumentContent cleanedContent
  rcases h : findHeaderLines ((splitNL content.toList).drop 6) with _ | ⟨before, cap, after⟩
  · simp only [h]
    rw [trim_dropWhile_nl]
  · simp only [h]

/-! ### Claim C4 -/

/-- C4 counterexample: on a document whose remainder is
`"#\nTitleFromNextLine"` the regex's `\s*` crosses the newline, so the
code takes the title from the line after the bare `#` heading (and removes
that line from the body), while the claim's reading — the heading line's
own trimmed text as title, only the heading line and its blank lines
removed — yields an empty title and keeps the following line. -/
theorem c4_parse_counterexample :
    parseDocumentContent "m1\nm2\nm3\nm4\nm5\nm6\n#\nTitleFromNextLine" "fall.md" ≠
      parseSpecClaim "m1\nm2\nm3\nm4\nm5\nm6\n#\nTitleFromNextLine" "fall.md" := by
  decide

/-- C4 amended: provided every heading line carries non-whitespace text on
the same line, `parseDocumentContent` discards exactly the first 6 lines,
selects the first heading line top-to-bottom, returns its trimmed text as
the title, and removes that heading line and its trailing blank lines —
with the body re-joined from the surrounding lines, stripped of leading
newlines and trimmed; without a heading the title falls back to the file
name minus `.md` and the body is the trimmed remainder.  The claim's
concrete example and the fallback example evaluate as stated. -/
theorem c4_parseDocumentContent_spec :
    (∀ (content fileName : String), headingsCarryText content = true →
      parseDocumentContent content fileName = parseSpecAmended content fileName) ∧
    parseDocumentContent "m1\nm2\nm3\nm4\nm5\nm6\n\n# My Title\nBody text" "f.md"
      = ("My Title", "Body text") ∧
    parseDocumentContent "m1\nm2\nm3\nm4\nm5\nm6\nplain body" "fall.md"
      = ("fall", "plain body") := by
  refine ⟨?_, by decide, by decide⟩
  intro content fileName H
  have H2 : ∀ l ∈ (splitNL content.toList).drop 6, isHeadingLine l = true →
      (headingRest l).any (fun c => !(isJsWs c)) = true := by
    intro l hm hh
    unfold headingsCarryText at H
    have := (List.all_eq_true.mp H) l hm
    rw [hh] at this
    simpa using this
  unfold parseDocumentContent parseSpecAmended
  simp only [findHeaderLines_spec _ H2]
  unfold findHeaderLinesSpec
  rcases hdw : ((splitNL content.toList).drop 6).dropWhile (fun l => !(isHeadingLine l))
      with _ | ⟨h, after⟩
  · simp only [hdw]
  · simp only [hdw]
    rw [trim_idem, trim_dropWhile_ws]

/-- Closed witness for C4 at the claim's example content. -/
theorem c4_parseDocumentContent_spec_witness :
    headingsCarryText "m1\nm2\nm3\nm4\nm5\nm6\n\n# My Title\nBody text" = true ∧
    parseDocumentContent "m1\nm2\nm3\nm4\nm5\nm6\n\n# My Title\nBody text" "f.md" =
      parseSpecAmended "m1\nm2\nm3\nm4\nm5\nm6\n\n# My Title\nBody text" "f.md" :=
  ⟨by decide,
   c4_parseDocumentContent_spec.1 "m1\nm2\nm3\nm4\nm5\nm6\n\n# My Title\nBody text" "f.md"
     (by decide)⟩

/-! ### Claims C1, C7, C9 -/

/-- The claim's example registry: normalized path `sub/doc` maps to
`/doc/ID1` in the document map. -/
def exampleDocMap : List Char → Option (List Char) :=
  fun k => if k = "sub/doc".toList then some "/doc/ID1".toList else none

/-- The claim's example registry: literal `img.png` maps to
`https://files/ID2` in the attachment map. -/
def exampleAttachmentMap : List Char → Option (List Char) :=
  fun k => if k = "img.png".toList then some "https://files/ID2".toList else none

/-- C1: for a link whose target does not start with `http`, the rewrite
callback substitutes the `documentUrlMap` entry of the normalized target
(one leading `/` stripped, percent-decoded, trailing `.md` stripped), else
of the normalized target with `.md` re-appended, else the
`attachmentUrlMap` entry of the original target, else leaves the link
unchanged; `http`-prefixed targets are untouched.  With registry entries
`sub/doc ↦ /doc/ID1` and `img.png ↦ https://files/ID2`, rewriting
`"[link](sub/doc.md)\n![pic](img.png)"` replaces both targets, and an
`https` link passes through — also through the complete
`updateMarkdownLinks` pipeline. -/
theorem c1_updateMarkdownLinks_resolution :
    (∀ (d a : List Char → Option (List Char)) (text g : List Char),
      ']' ∉ text → text ≠ [] → ')' ∉ g → g ≠ [] →
      rewriteAll d a (mkLink text g) =
        mkLink text
          (if ['h','t','t','p'].isPrefixOf g then g
           else
             match d (stripMdSuffix (percentDecode (stripLeadingSlash g))) with
             | some u => u
             | none =>
               match d (stripMdSuffix (percentDecode (stripLeadingSlash g)) ++ mdExt) with
               | some u => u
               | none =>
                 match a g with
                 | some u => u
                 | none => g)) ∧
    rewriteAll exampleDocMap exampleAttachmentMap
        "[link](sub/doc.md)\n![pic](img.png)".toList
      = "[link](/doc/ID1)\n![pic](https://files/ID2)".toList ∧
    rewriteAll exampleDocMap exampleAttachmentMap "[ext](https://x.com/y)".toList
      = "[ext](https://x.com/y)".toList ∧
    updateMarkdownLinks exampleDocMap exampleAttachmentMap
        "m1\nm2\nm3\nm4\nm5\nm6\n[link](sub/doc.md)\n![pic](img.png)"
      = "[link](/doc/ID1)\n![pic](https://files/ID2)" := by
  refine ⟨?_, by decide, by decide, by decide⟩
  intro d a text g ht htne hg hgne
  rw [rewriteAll_link ht htne hg hgne]
  rfl

/-- Closed witness for C1 at a concrete link and the example registry. -/
theorem c1_updateMarkdownLinks_resolution_witness :
    rewriteAll exampleDocMap exampleAttachmentMap (mkLink "pic".toList "img.png".toList) =
      mkLink "pic".toList
        (if ['h','t','t','p'].isPrefixOf "img.png".toList then "img.png".toList
         else
           match exampleDocMap (stripMdSuffix (percentDecode (stripLeadingSlash "img.png".toList))) with
           | some u => u
           | none =>
             match exampleDocMap
                 (stripMdSuffix (percentDecode (stripLeadingSlash "img.png".toList)) ++ mdExt) with
             | some u => u
             | none =>
               match exampleAttachmentMap "img.png".toList with
               | some u => u
               | none => "img.png".toList) :=
  c1_updateMarkdownLinks_resolution.1 exampleDocMap exampleAttachmentMap
    "pic".toList "img.png".toList (by decide) (by decide) (by decide) (by decide)

/-- C7: `scanMarkdownLinks` treats `[text](target)` and `![text](target)`
identically, skips `http://` and `https://` targets, sends `.md` targets
to the document map and all other in-scope targets to the attachment map,
keyed by the literal target; the claim's three-link example yields exactly
one document link and one attachment link. -/
theorem c7_scanMarkdownLinks_classification :
    (∀ (text g src : List Char), ']' ∉ text → ')' ∉ g → g ≠ [] →
      scanMarkdownLinks (mkImgLink text g) src = scanMarkdownLinks (mkLink text g) src ∧
      scanMarkdownLinks (mkLink text g) src =
        (if ['h','t','t','p',':','/','/'].isPrefixOf g
            || ['h','t','t','p','s',':','/','/'].isPrefixOf g then
          ([], [])
        else if mdExt.isSuffixOf g then
          ([], [(g, src)])
        else
          ([(g, src)], []))) ∧
    scanMarkdownLinks "[see](other.md) and ![pic](a.png) and [ext](https://x.com/y)".toList
        "S".toList
      = ([("a.png".toList, "S".toList)], [("other.md".toList, "S".toList)]) := by
  refine ⟨?_, by decide⟩
  intro text g src ht hg hgne
  exact scanMarkdownLinks_link ht hg hgne

/-- Closed witness for C7 at a concrete image link. -/
theorem c7_scanMarkdownLinks_classification_witness :
    scanMarkdownLinks (mkImgLink "pic".toList "a.png".toList) "S".toList =
      scanMarkdownLinks (mkLink "pic".toList "a.png".toList) "S".toList :=
  (c7_scanMarkdownLinks_classification.1 "pic".toList "a.png".toList "S".toList
    (by decide) (by decide) (by decide)).1

/-- C9: a link with empty bracketed text, `[](target)` or `![](target)`
with a non-http target, is recorded by the scanner (its text class
`[^\]]*` admits the empty text) but is never rewritten by
`updateMarkdownLinks` (its rewrite text class `[^\]]+` requires non-empty
text), even when the registries map the target — the link passes through
the replace pass unchanged. -/
theorem c9_empty_text_links :
    (∀ (d a : List Char → Option (List Char)) (g src : List Char),
      ')' ∉ g → g ≠ [] → '[' ∉ g →
      scanMarkdownLinks (mkImgLink [] g) src =
        (if ['h','t','t','p',':','/','/'].isPrefixOf g
            || ['h','t','t','p','s',':','/','/'].isPrefixOf g then
          ([], [])
        else if mdExt.isSuffixOf g then
          ([], [(g, src)])
        else
          ([(g, src)], [])) ∧
      rewriteAll d a (mkImgLink [] g) = mkImgLink [] g ∧
      rewriteAll d a (mkLink [] g) = mkLink [] g) ∧
    scanMarkdownLinks (mkImgLink [] "a.png".toList) "S".toList
      = ([("a.png".toList, "S".toList)], []) ∧
    rewriteAll (fun _ => some "/doc/MAPPED".toList) (fun _ => some "https://files/MAPPED".toList)
        (mkImgLink [] "a.png".toList)
      = mkImgLink [] "a.png".toList := by
  have hrw : ∀ (d a : List Char → Option (List Char)) (g : List Char),
      ')' ∉ g → '[' ∉ g →
      rewriteAll d a (mkLink [] g) = mkLink [] g := by
    intro d a g hg hbr
    have hform : mkLink [] g = '[' :: ']' :: '(' :: (g ++ [')']) := by
      simp [mkLink]
    rw [hform, rewriteAll_cons_none matchLinkAt_empty_text,
        rewriteAll_cons_none (matchLinkAt_cons_ne (show (']' : Char) ≠ '[' by decide)),
        rewriteAll_cons_none (matchLinkAt_cons_ne (show ('(' : Char) ≠ '[' by decide)),
        rewriteAll_no_bracket (g ++ [')'])
          (by
            intro hmem
            rcases List.mem_append.mp hmem with h2 | h2
            · exact hbr h2
            · simp at h2)]
  refine ⟨?_, by decide, by decide⟩
  intro d a g src hg hgne hbr
  refine ⟨(scanMarkdownLinks_link (by simp) hg hgne).1.trans
            (scanMarkdownLinks_link (by simp) hg hgne).2, ?_, hrw d a g hg hbr⟩
  rw [mkImgLink, rewriteAll_cons_none (matchLinkAt_cons_ne (show ('!' : Char) ≠ '[' by decide)),
      hrw d a g hg hbr]

/-- Closed witness for C9 at a concrete empty-text link. -/
theorem c9_empty_text_links_witness :
    scanMarkdownLinks (mkImgLink [] "b.png".toList) "S2".toList
      = ([("b.png".toList, "S2".toList)], []) :=
  ((c9_empty_text_links.1 exampleDocMap exampleAttachmentMap "b.png".toList "S2".toList
    (by decide) (by decide) (by decide)).1).trans (by decide)

/-! ### Claim C3: idempotence of the replace pass

The full `updateMarkdownLinks` is not idempotent (its cleaning strips 6
lines and a heading on every application); the substitution pass is, for
registries whose URLs cannot be rewritten again.  The lemmas below track
how the replace loop treats the regions around a failed match. -/

theorem splitAtChar_none_not_mem {stop : Char} :
    ∀ l : List Char, splitAtChar stop l = none → stop ∉ l := by
  intro l
  induction l with
  | nil => intro _ h; simp at h
  | cons c cs ih =>
    intro h hmem
    unfold splitAtChar at h
    by_cases hc : c = stop
    · rw [if_pos hc] at h
      simp at h
    · rw [if_neg hc] at h
      rcases h2 : splitAtChar stop cs with _ | pr
      · rcases List.mem_cons.mp hmem with h3 | h3
        · exact hc h3.symm
        · exact ih h2 h3
      · rw [h2] at h
        rcases pr with ⟨p, r⟩
        simp at h

theorem matchLinkAt_some_mem_close {l t g r : List Char}
    (h : matchLinkAt l = some (t, g, r)) : ']' ∈ l := by
  have := (matchLinkAt_some h).1
  subst this
  simp

theorem matchLinkAt_some_mem_paren {l t g r : List Char}
    (h : matchLinkAt l = some (t, g, r)) : ')' ∈ l := by
  have := (matchLinkAt_some h).1
  subst this
  simp

/-- A string without `]` passes through the replace loop unchanged. -/
theorem rewriteAll_no_close_bracket {d a : List Char → Option (List Char)} :
    ∀ l : List Char, ']' ∉ l → rewriteAll d a l = l := by
  intro l
  induction l with
  | nil => intro _; exact rewriteAll_nil
  | cons c cs ih =>
    intro hmem
    have hnone : matchLinkAt (c :: cs) = none := by
      rcases hmm : matchLinkAt (c :: cs) with _ | ⟨t, g, r⟩
      · rfl
      · exact absurd (matchLinkAt_some_mem_close hmm) hmem
    rw [rewriteAll_cons_none hnone,
        ih (fun h => hmem (List.mem_cons_of_mem _ h))]

/-- A string without `)` passes through the replace loop unchanged. -/
theorem rewriteAll_no_paren {d a : List Char → Option (List Char)} :
    ∀ l : List Char, ')' ∉ l → rewriteAll d a l = l := by
  intro l
  induction l with
  | nil => intro _; exact rewriteAll_nil
  | cons c cs ih =>
    intro hmem
    have hnone : matchLinkAt (c :: cs) = none := by
      rcases hmm : matchLinkAt (c :: cs) with _ | ⟨t, g, r⟩
      · rfl
      · exact absurd (matchLinkAt_some_mem_paren hmm) hmem
    rw [rewriteAll_cons_none hnone,
        ih (fun h => hmem (List.mem_cons_of_mem _ h))]

/-- The replace loop preserves the first character of its input (a match
at the head starts with `[` and is replaced by a `[`-headed string). -/
theorem rewriteAll_head {d a : List Char → Option (List Char)} (c : Char) (cs : List Char) :
    ∃ t : List Char, rewriteAll d a (c :: cs) = c :: t := by
  rcases hm : matchLinkAt (c :: cs) with _ | ⟨text, g, rest⟩
  · exact ⟨rewriteAll d a cs, rewriteAll_cons_none hm⟩
  · have hc : c = '[' := by
      have := (matchLinkAt_some hm).1
      injection this with h1 h2
    refine ⟨text ++ ']' :: '(' :: newTarget d a g ++ [')'] ++ rewriteAll d a rest, ?_⟩
    rw [rewriteAll_cons_some hm, hc]
    simp [rewriteMatch]

/-- After the `](` of a failed match attempt the target scan fails: either
there is no `)` at all, or it comes immediately (empty target). -/
def failAfter (rest1 : List Char) : Prop :=
  ∀ rest2, rest1 = '(' :: rest2 →
    splitAtChar ')' rest2 = none ∨ ∃ r3, splitAtChar ')' rest2 = some ([], r3)

theorem matchLinkAt_fail_after {t rest1 : List Char}
    (ht : ']' ∉ t) (hf : failAfter rest1) :
    matchLinkAt ('[' :: t ++ ']' :: rest1) = none := by
  have hs := splitAtChar_append ']' t rest1 ht
  by_cases hte : t = []
  · subst hte
    simpa using (matchLinkAt_empty_text (x := rest1))
  · cases rest1 with
    | nil => simp [matchLinkAt, expectChar_cons, hs, hte, expectChar]
    | cons c2 r2 =>
      by_cases hc2 : c2 = '('
      · subst hc2
        rcases hf r2 rfl with hnone | ⟨r3, hsome⟩
        · simp [matchLinkAt, expectChar_cons, hs, hte, hnone]
        · simp [matchLinkAt, expectChar_cons, hs, hte, hsome]
      · simp [matchLinkAt, expectChar_cons, expectChar_cons_ne hc2, hs, hte]

theorem failAfter_rewriteAll {d a : List Char → Option (List Char)} {r1 : List Char}
    (hf : failAfter r1) : failAfter (rewriteAll d a r1) := by
  intro rest2 heq
  cases r1 with
  | nil =>
    rw [rewriteAll_nil] at heq
    simp at heq
  | cons e es =>
    obtain ⟨t, ht⟩ := rewriteAll_head (d := d) (a := a) e es
    rw [ht] at heq
    injection heq with h1 h2
    subst h1
    have hre : rewriteAll d a ('(' :: es) = '(' :: rewriteAll d a es :=
      rewriteAll_cons_none (matchLinkAt_cons_ne (show ('(' : Char) ≠ '[' by decide))
    rw [hre] at ht
    injection ht with h3 h4
    rcases hf es rfl with hnone | ⟨r3, hsome⟩
    · have hmem := splitAtChar_none_not_mem es hnone
      rw [← h2, ← h4, rewriteAll_no_paren es hmem]
      exact Or.inl hnone
    · obtain ⟨hes, -⟩ := splitAtChar_eq_some ')' es [] r3 hsome
      simp at hes
      subst hes
      have hre2 : rewriteAll d a (')' :: r3) = ')' :: rewriteAll d a r3 :=
        rewriteAll_cons_none (matchLinkAt_cons_ne (show (')' : Char) ≠ '[' by decide))
      rw [← h2, ← h4, hre2]
      refine Or.inr ⟨rewriteAll d a r3, ?_⟩
      unfold splitAtChar
      simp

/-- The replace loop walks the text region of a failed match attempt
without changing it. -/
theorem rewriteAll_walk_text {d a : List Char → Option (List Char)} :
    ∀ text rest1 : List Char, ']' ∉ text → failAfter rest1 →
      rewriteAll d a (text ++ ']' :: rest1) = text ++ ']' :: rewriteAll d a rest1 := by
  intro text
  induction text with
  | nil =>
    intro rest1 _ _
    exact rewriteAll_cons_none (matchLinkAt_cons_ne (show (']' : Char) ≠ '[' by decide))
  | cons h t ih =>
    intro rest1 hmem hf
    have hmt : ']' ∉ t := fun hx => hmem (List.mem_cons_of_mem _ hx)
    by_cases hc : h = '['
    · subst hc
      have hnone : matchLinkAt ('[' :: (t ++ ']' :: rest1)) = none := by
        simpa using matchLinkAt_fail_after hmt hf
      rw [List.cons_append, rewriteAll_cons_none hnone, ih rest1 hmt hf]
      simp
    · rw [List.cons_append, rewriteAll_cons_none (matchLinkAt_cons_ne hc),
          ih rest1 hmt hf]
      simp

/-- A failed match attempt at the head still fails after the tail has been
rewritten. -/
theorem matchLinkAt_none_rewriteAll {d a : List Char → Option (List Char)}
    {c : Char} {cs : List Char} (hm : matchLinkAt (c :: cs) = none) :
    matchLinkAt (c :: rewriteAll d a cs) = none := by
  by_cases hc : c = '['
  · subst hc
    rcases hsp : splitAtChar ']' cs with _ | ⟨p1, r1⟩
    · rw [rewriteAll_no_close_bracket cs (splitAtChar_none_not_mem cs hsp)]
      exact hm
    · obtain ⟨hcs, hp1mem⟩ := splitAtChar_eq_some ']' cs p1 r1 hsp
      by_cases hp1e : p1 = []
      · subst hp1e
        simp at hcs
        subst hcs
        rw [rewriteAll_cons_none (matchLinkAt_cons_ne (show (']' : Char) ≠ '[' by decide))]
        exact matchLinkAt_empty_text
      · have hfail : failAfter r1 := by
          intro r2 heq
          rcases h3 : splitAtChar ')' r2 with _ | ⟨tg, r3⟩
          · exact Or.inl rfl
          · by_cases htg : tg = []
            · subst htg
              exact Or.inr ⟨r3, rfl⟩
            · exfalso
              obtain ⟨hr2, htgmem⟩ := splitAtChar_eq_some ')' r2 tg r3 h3
              have hb := matchLinkAt_build (r := r3) hp1mem hp1e htgmem htg
              rw [hcs, heq, hr2] at hm
              have : ('[' :: (p1 ++ ']' :: '(' :: (tg ++ ')' :: r3)) : List Char) =
                  '[' :: p1 ++ ']' :: '(' :: tg ++ ')' :: r3 := by simp
              rw [this, hb] at hm
              simp at hm
        subst hcs
        rw [rewriteAll_walk_text p1 r1 hp1mem hfail]
        have := matchLinkAt_fail_after hp1mem (failAfter_rewriteAll (d := d) (a := a) hfail)
        simpa using this
  · exact matchLinkAt_cons_ne hc

/-- A registry URL that the rewrite pass cannot touch again: non-empty,
free of `)`, and either `http`-prefixed or unknown to all three lookups. -/
def urlInert (d a : List Char → Option (List Char)) (u : List Char) : Prop :=
  u ≠ [] ∧ ')' ∉ u ∧
    (['h','t','t','p'].isPrefixOf u = true ∨
      (d (normalizeTarget u) = none ∧ d (normalizeTarget u ++ mdExt) = none ∧ a u = none))

/-- Sane registries: every stored URL is inert.  This holds for the URLs
the script stores (`/doc/<id>` and `https://…` upload URLs). -/
def registriesInert (d a : List Char → Option (List Char)) : Prop :=
  (∀ k u, d k = some u → urlInert d a u) ∧ (∀ k u, a k = some u → urlInert d a u)

theorem newTarget_props {d a : List Char → Option (List Char)}
    (hin : registriesInert d a) {g : List Char} (hg : ')' ∉ g) (hgne : g ≠ []) :
    ')' ∉ newTarget d a g ∧ newTarget d a g ≠ [] ∧
      newTarget d a (newTarget d a g) = newTarget d a g := by
  have hfix : ∀ u, urlInert d a u → newTarget d a u = u := by
    intro u hu
    obtain ⟨hne, hpar, hcase⟩ := hu
    rcases hhu : ['h','t','t','p'].isPrefixOf u with _ | _
    · rcases hcase with hhttp | ⟨h1, h2, h3⟩
      · rw [hhu] at hhttp
        exact absurd hhttp (by simp)
      · simp only [newTarget, hhu, Bool.false_eq_true, if_false, h1, h2, h3]
    · simp only [newTarget, hhu, if_true]
  rcases hhb : ['h','t','t','p'].isPrefixOf g with _ | _
  · rcases h1 : d (normalizeTarget g) with _ | u1
    · rcases h2 : d (normalizeTarget g ++ mdExt) with _ | u2
      · rcases h3 : a g with _ | u3
        · have hng : newTarget d a g = g := by
            simp only [newTarget, hhb, Bool.false_eq_true, if_false, h1, h2, h3]
          rw [hng]
          exact ⟨hg, hgne, hng⟩
        · have hng : newTarget d a g = u3 := by
            simp only [newTarget, hhb, Bool.false_eq_true, if_false, h1, h2, h3]
          have hu := hin.2 g u3 h3
          rw [hng]
          exact ⟨hu.2.1, hu.1, hfix u3 hu⟩
      · have hng : newTarget d a g = u2 := by
          simp only [newTarget, hhb, Bool.false_eq_true, if_false, h1, h2]
        have hu := hin.1 _ u2 h2
        rw [hng]
        exact ⟨hu.2.1, hu.1, hfix u2 hu⟩
    · have hng : newTarget d a g = u1 := by
        simp only [newTarget, hhb, Bool.false_eq_true, if_false, h1]
      have hu := hin.1 _ u1 h1
      rw [hng]
      exact ⟨hu.2.1, hu.1, hfix u1 hu⟩
  · have hng : newTarget d a g = g := by
      simp only [newTarget, hhb, if_true]
    rw [hng]
    exact ⟨hg, hgne, hng⟩

theorem rewriteAll_idem_aux {d a : List Char → Option (List Char)}
    (hin : registriesInert d a) :
    ∀ n l, l.length ≤ n →
      rewriteAll d a (rewriteAll d a l) = rewriteAll d a l := by
  intro n
  induction n with
  | zero =>
    intro l hl
    have : l = [] := by
      cases l with
      | nil => rfl
      | cons c cs => simp at hl
    subst this
    rw [rewriteAll_nil, rewriteAll_nil]
  | succ n ih =>
    intro l hl
    cases l with
    | nil => rw [rewriteAll_nil, rewriteAll_nil]
    | cons c cs =>
      simp only [List.length_cons] at hl
      rcases hm : matchLinkAt (c :: cs) with _ | ⟨text, g, rest⟩
      · rw [rewriteAll_cons_none hm,
            rewriteAll_cons_none (matchLinkAt_none_rewriteAll hm),
            ih cs (by omega)]
      · obtain ⟨hdecomp, hmt, htne, hmg, hgne⟩ := matchLinkAt_some hm
        obtain ⟨hp1, hp2, hp3⟩ := newTarget_props hin hmg hgne
        have hlen := matchLinkAt_some_length hm
        simp only [List.length_cons] at hlen
        rw [rewriteAll_cons_some hm]
        have hshape : rewriteMatch d a text g ++ rewriteAll d a rest =
            '[' :: (text ++ ']' :: '(' :: (newTarget d a g ++ ')' :: rewriteAll d a rest)) := by
          simp [rewriteMatch]
        have hb : matchLinkAt ('[' :: (text ++ ']' :: '(' ::
            (newTarget d a g ++ ')' :: rewriteAll d a rest))) =
            some (text, newTarget d a g, rewriteAll d a rest) := by
          simpa using matchLinkAt_build (r := rewriteAll d a rest) hmt htne hp1 hp2
        rw [hshape, rewriteAll_cons_some hb, ih rest (by omega)]
        have hmatch2 : rewriteMatch d a text (newTarget d a g) = rewriteMatch d a text g := by
          unfold rewriteMatch
          rw [hp3]
        rw [hmatch2, ← hshape]

/-- C3 counterexample: `updateMarkdownLinks` is not idempotent — every
application discards the first six lines, so re-running it on a
seven-line result drops six more lines (here with empty registries, so no
substitution is involved at all). -/
theorem c3_not_idempotent_counterexample :
    updateMarkdownLinks (fun _ => none) (fun _ => none)
        (updateMarkdownLinks (fun _ => none) (fun _ => none)
          "1\n2\n3\n4\n5\n6\nl1\nl2\nl3\nl4\nl5\nl6\nl7") ≠
      updateMarkdownLinks (fun _ => none) (fun _ => none)
        "1\n2\n3\n4\n5\n6\nl1\nl2\nl3\nl4\nl5\nl6\nl7" := by
  decide

/-- C3 amended: the substitution pass of `updateMarkdownLinks` is
idempotent on its own output for every registry whose stored URLs are
inert (non-empty, `)`-free, and either `http`-prefixed or not further
mapped); the full function is not idempotent because its cleaning step
strips the first six lines and a heading on every application. -/
theorem c3_rewrite_pass_idempotent :
    ∀ d a : List Char → Option (List Char), registriesInert d a →
      ∀ l : List Char, rewriteAll d a (rewriteAll d a l) = rewriteAll d a l := by
  intro d a hin l
  exact rewriteAll_idem_aux hin l.length l le_rfl

/-- Closed witness for C3 at the example registry and a concrete link. -/
theorem c3_rewrite_pass_idempotent_witness :
    rewriteAll (fun _ => none) (fun _ => none)
        (rewriteAll (fun _ => none) (fun _ => none) "x [a](b.md) y".toList) =
      rewriteAll (fun _ => none) (fun _ => none) "x [a](b.md) y".toList :=
  c3_rewrite_pass_idempotent (fun _ => none) (fun _ => none)
    ⟨fun _ u h => Option.noConfusion h, fun _ u h => Option.noConfusion h⟩
    "x [a](b.md) y".toList

/-! ### Claim C5 -/

/-- C5: `isMediaFolder` returns true precisely when the base name starts
with `media_` (regardless of contents, including empty), or the directory
holds at least one file and every file's extension, case-insensitively,
is in {jpg, jpeg, png, gif, pdf}; an empty directory without the name
prefix is not a media folder, and a single file with a stray extension
defeats the classification. -/
theorem c5_isMediaFolder_classification :
    (∀ (baseName : String) (entries : List (String × Bool)),
      isMediaFolder baseName entries = true ↔
        (mediaPrefix.isPrefixOf baseName.toList = true ∨
          (((entries.filter (fun e => e.2)).map (fun e => e.1)) ≠ [] ∧
            ∀ f ∈ (entries.filter (fun e => e.2)).map (fun e => e.1),
              hasMediaExt f = true))) ∧
    isMediaFolder "media_x" [] = true ∧
    isMediaFolder "pics" [] = false ∧
    isMediaFolder "pics" [("a.JPG", true), ("b.pdf", true)] = true ∧
    isMediaFolder "pics" [("a.JPG", true), ("b.txt", true)] = false := by
  refine ⟨?_, by decide, by decide, by decide, by decide⟩
  intro baseName entries
  unfold isMediaFolder
  by_cases hp : mediaPrefix.isPrefixOf baseName.toList
  · simp [hp]
  · simp only [hp, Bool.false_eq_true, if_false]
    by_cases hf : ((entries.filter (fun e => e.2)).map (fun e => e.1)).length = 0
    · rw [List.length_eq_zero] at hf
      simp [hf, List.length_eq_zero]
    · rw [if_neg hf]
      rw [List.length_eq_zero] at hf
      simp [hf, List.all_eq_true, hp]

/-! ### Claim C6 -/

/-- C6: `resolveAttachmentPath` percent-decodes the reference, then
resolves it against the source document's directory when the decoded
reference contains `media_`, else against the sibling directory named
`media_` plus the document's base name without `.md`; with the claim's
two concrete examples. -/
theorem c6_resolveAttachmentPath_spec :
    (∀ cwd ref src : List Char,
      resolveAttachmentPath cwd ref src =
        if containsSub mediaPrefix (percentDecode ref) then
          resolvePosix cwd [dirnameChars src, percentDecode ref]
        else
          resolvePosix cwd
            [dirnameChars src, mediaPrefix ++ basenameExt src mdExt, percentDecode ref]) ∧
    resolveAttachmentPath "/".toList "media_foo/img.png".toList "/a/b/doc.md".toList
      = "/a/b/media_foo/img.png".toList ∧
    resolveAttachmentPath "/".toList "img.png".toList "/a/b/doc.md".toList
      = "/a/b/media_doc/img.png".toList := by
  refine ⟨?_, by decide, by decide⟩
  intro cwd ref src
  rfl

/-! ### Claim C8 -/

/-- C8: a subdirectory classified as a media folder is skipped entirely by
the structure builder: no container document is created for it, nothing is
registered for it, and the builder does not recurse into it — processing
the directory entry leaves the builder state exactly as it was. -/
theorem c8_media_folder_skipped :
    (∀ (name : String) (es rest : List FsEntry) (relDir coll : String)
        (parent : Option String) (st : MigState),
      isMediaFolder name (listingOf es) = true →
      processDirEntries (FsEntry.dir name es :: rest) relDir coll parent st =
        processDirEntries rest relDir coll parent st) ∧
    (∀ (name : String) (es : List FsEntry) (relDir coll : String)
        (parent : Option String) (st : MigState),
      isMediaFolder name (listingOf es) = true →
      createDocumentStructure [FsEntry.dir name es] relDir coll parent st = st) := by
  have hstep : ∀ (name : String) (es rest : List FsEntry) (relDir coll : String)
      (parent : Option String) (st : MigState),
      isMediaFolder name (listingOf es) = true →
      processDirEntries (FsEntry.dir name es :: rest) relDir coll parent st =
        processDirEntries rest relDir coll parent st := by
    intro name es rest relDir coll parent st h
    rw [processDirEntries]
    simp [h]
  refine ⟨hstep, ?_⟩
  intro name es relDir coll parent st h
  unfold createDocumentStructure
  have hfiles : processFileEntries [FsEntry.dir name es] relDir coll parent st = st := rfl
  rw [hfiles, hstep name es [] relDir coll parent st h]
  rw [processDirEntries]

/-- Closed witness for C8 at a concrete media directory. -/
theorem c8_media_folder_skipped_witness :
    isMediaFolder "media_x" (listingOf [FsEntry.file "a.png" ""]) = true ∧
    createDocumentStructure [FsEntry.dir "media_x" [FsEntry.file "a.png" ""]]
      "" "coll" none ⟨0, [], [], []⟩ = ⟨0, [], [], []⟩ :=
  ⟨by decide,
   c8_media_folder_skipped.2 "media_x" [FsEntry.file "a.png" ""] "" "coll" none
     ⟨0, [], [], []⟩ (by decide)⟩

/-! ### Claim C10 -/

/-- C10: phase 2 attempts an upload only when the source document of the
scanned reference is registered in `documentIdMap`; for an unregistered
source the iteration performs no upload and adds no `attachmentUrlMap`
entry — the phase-2 state is unchanged. -/
theorem c10_unregistered_source_skipped :
    (∀ (docIdMap : List (String × String)) (fileExists : String → Bool)
        (uploadedUrl : String → String → String) (cwd : String)
        (st : Phase2State) (link sourcePath : String),
      docIdMap.lookup (relativeFromBackup sourcePath) = none →
      uploadAttachmentStep docIdMap fileExists uploadedUrl cwd st link sourcePath = st) ∧
    (∀ (docIdMap : List (String × String)) (fileExists : String → Bool)
        (uploadedUrl : String → String → String) (cwd : String)
        (st : Phase2State) (link sourcePath : String),
      (uploadAttachmentStep docIdMap fileExists uploadedUrl cwd st link sourcePath).uploads
          ≠ st.uploads →
      docIdMap.lookup (relativeFromBackup sourcePath) ≠ none) := by
  have hskip : ∀ (docIdMap : List (String × String)) (fileExists : String → Bool)
      (uploadedUrl : String → String → String) (cwd : String)
      (st : Phase2State) (link sourcePath : String),
      docIdMap.lookup (relativeFromBackup sourcePath) = none →
      uploadAttachmentStep docIdMap fileExists uploadedUrl cwd st link sourcePath = st := by
    intro docIdMap fileExists uploadedUrl cwd st link sourcePath h
    unfold uploadAttachmentStep
    rw [h]
  refine ⟨hskip, ?_⟩
  intro docIdMap fileExists uploadedUrl cwd st link sourcePath hup hnone
  exact hup (by rw [hskip docIdMap fileExists uploadedUrl cwd st link sourcePath hnone])

/-- Closed witness for C10: a markdown file inside a skipped media folder
has no registry entry, so its attachment reference is skipped. -/
theorem c10_unregistered_source_skipped_witness :
    ([] : List (String × String)).lookup
        (relativeFromBackup "slite-backup/channels/ch/media_x/z.md") = none ∧
    uploadAttachmentStep [] (fun _ => true) (fun _ _ => "u") "/"
      ⟨[], []⟩ "a.png" "slite-backup/channels/ch/media_x/z.md" = ⟨[], []⟩ :=
  ⟨by decide,
   c10_unregistered_source_skipped.1 [] (fun _ => true) (fun _ _ => "u") "/"
     ⟨[], []⟩ "a.png" "slite-backup/channels/ch/media_x/z.md" (by decide)⟩

end Slite
